import Mathlib

/-!
# Verification of the Image-Processing-Toolkit contrast/edge core

Shallow embedding of the `HistogramEqualization` and `EdgeDetection`
modules of the toolkit.

Conventions of the embedding:

* A pixel buffer (`Uint8ClampedArray`) is a `List ℕ` of byte values;
  reads `buf[i]` are `List.getD buf i 0` (theorems carry hypotheses
  keeping reads in bounds wherever the default could matter).
* JavaScript number arithmetic is embedded exactly over `ℚ`
  (the exact-real idealization of the double computations; every
  constant appearing in the source, e.g. `0.299`, is exactly
  representable in `ℚ`).
* `Math.round` is `jsRound` (round half toward +∞);
  storing a number into a `Uint8ClampedArray` clamps to `[0,255]` and
  rounds ties to even (`roundHalfEven` / `clampRoundU8`);
  storing an integer into a `Uint32Array` wraps modulo `2^32`
  (`toUint32`).
* An output array is built by `(List.range pixels.length).map f`,
  where `f n` is the value the loops of the source leave at index `n`:
  every loop in these modules writes each index at most once, so the
  translation to an index function is exact, including the
  zero-initialized entries the loops never touch.
* In the only place the source can divide by zero
  (`calculateLUT`, a tile whose cumulative histogram is flat),
  JavaScript produces `0/0 = NaN`, `NaN · 255 = NaN`,
  `Math.round NaN = NaN`, and a `Uint8ClampedArray` stores `NaN` as
  `0`; the `ℚ` convention `0 / 0 = 0` stores `0` at exactly those
  entries, so the embedding agrees with the source there (the
  numerator is zero whenever the denominator is, because the CDF is
  monotone and `CDF[0] = CDF[255]` forces all entries equal).
-/

namespace ImageToolkit

/-! ## Numeric primitives of the JavaScript environment -/

/-- JavaScript `Math.round`: round half toward positive infinity. -/
def jsRound (q : ℚ) : ℤ := ⌊q + 1/2⌋

/-- Round to the nearest integer, ties to even (the rounding applied
when a JavaScript number is stored into a `Uint8ClampedArray`). -/
def roundHalfEven (q : ℚ) : ℤ :=
  let n := ⌊q⌋
  let r := q - n
  if r < 1/2 then n
  else if 1/2 < r then n + 1
  else if n % 2 = 0 then n else n + 1

/-- The byte stored when the number `q` is assigned to a
`Uint8ClampedArray` entry: clamp to `[0,255]`, round ties to even. -/
def clampRoundU8 (q : ℚ) : ℕ := (max 0 (min 255 (roundHalfEven q))).toNat

/-- The value stored when the integer `z` is assigned to a `Uint32Array`
entry (ECMAScript `ToUint32`). -/
def toUint32 (z : ℤ) : ℕ := (z % 2 ^ 32).toNat

/-- The byte stored for `Math.max(0, Math.min(255, Math.sqrt s))` in a
`Uint8ClampedArray`, computed exactly from the radicand `s ≥ 0`:
the nearest integer to `√s` (`√s` lies beyond an integer `n` plus one
half exactly when `4·s` lies beyond `(2n+1)²`; ties round to even),
capped at `255`. -/
def sqrtStoreU8 (s : ℚ) : ℕ :=
  let n := Nat.sqrt ⌊s⌋.toNat
  min 255
    (if 4 * s < ((2 * n + 1 : ℕ) : ℚ) ^ 2 then n
     else if ((2 * n + 1 : ℕ) : ℚ) ^ 2 < 4 * s then n + 1
     else if n % 2 = 0 then n else n + 1)

/-- The comparison `Math.sqrt s > t` for a radicand `s ≥ 0`, expressed
exactly on the radicand: true iff `t < 0`, or `t² < s`. -/
def sqrtGT (s t : ℚ) : Bool := decide (t < 0 ∨ t * t < s)

/-! ## Grayscale conversions -/

/-- The perceptual luma weighting `0.299·R + 0.587·G + 0.114·B` used by
the histogram-equalization module for intensity. -/
def luma (r g b : ℕ) : ℚ := r * 0.299 + g * 0.587 + b * 0.114

/-- The unweighted channel mean `(R + G + B) / 3` used by the
edge-detection module for grayscale conversion. -/
def grayMean (r g b : ℕ) : ℚ := ((r : ℚ) + g + b) / 3

/-- The histogram bin of a pixel: `Math.round` of its luma
(`getHistogram` / `getTileHistogram`). -/
def binOf (r g b : ℕ) : ℕ := (jsRound (luma r g b)).toNat

/-! ## `EdgeDetection` module -/

/-- Sobel horizontal kernel (`EdgeDetection.sobel`). -/
def sobelGx : List ℤ := [-1, 0, 1, -2, 0, 2, -1, 0, 1]

/-- Sobel vertical kernel (`EdgeDetection.sobel`). -/
def sobelGy : List ℤ := [-1, -2, -1, 0, 0, 0, 1, 2, 1]

/-- Prewitt horizontal kernel (`EdgeDetection.prewitt`). -/
def prewittGx : List ℤ := [-1, 0, 1, -1, 0, 1, -1, 0, 1]

/-- Prewitt vertical kernel (`EdgeDetection.prewitt`). -/
def prewittGy : List ℤ := [-1, -1, -1, 0, 0, 0, 1, 1, 1]

/-- Laplacian kernel (`EdgeDetection.laplacian`). -/
def laplacianKernel : List ℤ := [0, -1, 0, -1, 4, -1, 0, -1, 0]

/-- Interior-pixel guard of the edge-detection loops: row `i` and
column `j` at least one away from every border. -/
def interiorPix (width height i j : ℕ) : Prop :=
  1 ≤ i ∧ i < height - 1 ∧ 1 ≤ j ∧ j < width - 1

instance (width height i j : ℕ) : Decidable (interiorPix width height i j) := by
  unfold interiorPix; infer_instance

/-- The weighted neighborhood sum of `EdgeDetection.applyGradient` for
kernel `k` at interior pixel `(j, i)`: each neighbor is converted to
gray by the channel mean `(R+G+B)/3` (the source hard-codes this
conversion). -/
def gradSum (pixels : List ℕ) (width : ℕ) (k : List ℤ) (i j : ℕ) : ℚ :=
  ∑ ki ∈ Finset.range 3, ∑ kj ∈ Finset.range 3,
    grayMean (pixels.getD (((i + ki - 1) * width + (j + kj - 1)) * 4) 0)
        (pixels.getD (((i + ki - 1) * width + (j + kj - 1)) * 4 + 1) 0)
        (pixels.getD (((i + ki - 1) * width + (j + kj - 1)) * 4 + 2) 0) *
      ((k.getD (ki * 3 + kj) 0 : ℤ) : ℚ)

/-- The byte `EdgeDetection.applyGradient` leaves at output index `n`:
for an interior pixel, the clamped gradient magnitude
`√(sumGx² + sumGy²)` in R, G, B and the copied alpha; `0` (the
zero-initialized entry) everywhere else. -/
def applyGradientAt (pixels : List ℕ) (width height : ℕ) (gx gy : List ℤ) (n : ℕ) : ℕ :=
  if interiorPix width height (n / 4 / width) (n / 4 % width) then
    if n % 4 = 3 then pixels.getD n 0
    else
      sqrtStoreU8 (gradSum pixels width gx (n / 4 / width) (n / 4 % width) ^ 2 +
        gradSum pixels width gy (n / 4 / width) (n / 4 % width) ^ 2)
  else 0

/-- `EdgeDetection.applyGradient(pixels, width, height, gx, gy)`. -/
def applyGradient (pixels : List ℕ) (width height : ℕ) (gx gy : List ℤ) : List ℕ :=
  (List.range pixels.length).map (applyGradientAt pixels width height gx gy)

/-- `EdgeDetection.sobel` (after its parameter validation). -/
def sobel (pixels : List ℕ) (width height : ℕ) : List ℕ :=
  applyGradient pixels width height sobelGx sobelGy

/-- `EdgeDetection.prewitt` (after its parameter validation). -/
def prewitt (pixels : List ℕ) (width height : ℕ) : List ℕ :=
  applyGradient pixels width height prewittGx prewittGy

/-- The weighted neighborhood sum of `EdgeDetection.laplacian` at
interior pixel `(j, i)` (channel-mean gray, like `applyGradient`). -/
def lapSum (pixels : List ℕ) (width : ℕ) (i j : ℕ) : ℚ :=
  ∑ ki ∈ Finset.range 3, ∑ kj ∈ Finset.range 3,
    grayMean (pixels.getD (((i + ki - 1) * width + (j + kj - 1)) * 4) 0)
        (pixels.getD (((i + ki - 1) * width + (j + kj - 1)) * 4 + 1) 0)
        (pixels.getD (((i + ki - 1) * width + (j + kj - 1)) * 4 + 2) 0) *
      ((laplacianKernel.getD (ki * 3 + kj) 0 : ℤ) : ℚ)

/-- `EdgeDetection.laplacian` (after its parameter validation):
for each interior pixel store `Math.max(0, Math.min(255, |sum|))` in
R, G, B and copy alpha; border entries stay `0`. -/
def laplacianAt (pixels : List ℕ) (width height : ℕ) (n : ℕ) : ℕ :=
  if interiorPix width height (n / 4 / width) (n / 4 % width) then
    if n % 4 = 3 then pixels.getD n 0
    else clampRoundU8 |lapSum pixels width (n / 4 / width) (n / 4 % width)|
  else 0

/-- `EdgeDetection.laplacian` as a whole output buffer. -/
def laplacian (pixels : List ℕ) (width height : ℕ) : List ℕ :=
  (List.range pixels.length).map (laplacianAt pixels width height)

/-- One channel of `EdgeDetection.gaussianBlur`: the 3×3 box blur with
coordinates clamped to the buffer (`count` is always 9), stored as
`Math.round(sum / count)`. -/
def blurChan (pixels : List ℕ) (width height : ℕ) (i j c : ℕ) : ℕ :=
  (jsRound ((∑ ki ∈ Finset.range 3, ∑ kj ∈ Finset.range 3,
    ((pixels.getD ((min (height - 1) (i + ki - 1) * width +
      min (width - 1) (j + kj - 1)) * 4 + c) 0 : ℕ) : ℚ)) / 9)).toNat

/-- `EdgeDetection.gaussianBlur(pixels, width, height)`: 3×3 box blur
with edge-clamped sampling on every pixel; alpha copied. -/
def gaussianBlurAt (pixels : List ℕ) (width height : ℕ) (n : ℕ) : ℕ :=
  if 0 < width ∧ n / 4 / width < height then
    if n % 4 = 3 then pixels.getD n 0
    else blurChan pixels width height (n / 4 / width) (n / 4 % width) (n % 4)
  else 0

/-- `EdgeDetection.gaussianBlur` as a whole output buffer. -/
def gaussianBlur (pixels : List ℕ) (width height : ℕ) : List ℕ :=
  (List.range pixels.length).map (gaussianBlurAt pixels width height)

/-- The squared Sobel magnitude of `EdgeDetection.sobelWithGradient` at
pixel index `p`: the source stores `magnitude[p] = √(sobelMagSq p)`
into a zero-initialized `Float32Array` (interior pixels only), so the
square is the exact content of that array entry. -/
def sobelMagSq (pixels : List ℕ) (width height p : ℕ) : ℚ :=
  if interiorPix width height (p / width) (p % width) then
    gradSum pixels width sobelGx (p / width) (p % width) ^ 2 +
      gradSum pixels width sobelGy (p / width) (p % width) ^ 2
  else 0

/-- The squared Sobel magnitude `EdgeDetection.canny` classifies with:
Sobel over the box-blurred buffer. -/
def cannyMagSq (pixels : List ℕ) (width height p : ℕ) : ℚ :=
  sobelMagSq (gaussianBlur pixels width height) width height p

/-- `EdgeDetection.canny(pixels, width, height, low, high)` (after its
parameter validation): blur, Sobel magnitude, then dual-threshold
classification; sub-low pixels keep the zero-initialized default. -/
def cannyAt (pixels : List ℕ) (width height : ℕ) (low high : ℚ) (n : ℕ) : ℕ :=
  if n / 4 < width * height then
    if sqrtGT (cannyMagSq pixels width height (n / 4)) high then 255
    else if sqrtGT (cannyMagSq pixels width height (n / 4)) low then
      if n % 4 = 3 then 255 else 128
    else 0
  else 0

/-- `EdgeDetection.canny` as a whole output buffer. -/
def canny (pixels : List ℕ) (width height : ℕ) (low high : ℚ) : List ℕ :=
  (List.range pixels.length).map (cannyAt pixels width height low high)

/-- Modelled from the spec (§4.2), for comparison with the source's
`applyGradient`: the same gradient neighborhood sum with the
per-neighbor grayscale conversion left as a parameter `gray`. -/
def gradSumWith (gray : ℕ → ℕ → ℕ → ℚ) (pixels : List ℕ) (width : ℕ)
    (k : List ℤ) (i j : ℕ) : ℚ :=
  ∑ ki ∈ Finset.range 3, ∑ kj ∈ Finset.range 3,
    gray (pixels.getD (((i + ki - 1) * width + (j + kj - 1)) * 4) 0)
        (pixels.getD (((i + ki - 1) * width + (j + kj - 1)) * 4 + 1) 0)
        (pixels.getD (((i + ki - 1) * width + (j + kj - 1)) * 4 + 2) 0) *
      ((k.getD (ki * 3 + kj) 0 : ℤ) : ℚ)

/-- Modelled from the spec (§4.2), for comparison with the source's
`applyGradient`: the gradient operator with the grayscale conversion
left as a parameter `gray`. -/
def applyGradientWithAt (gray : ℕ → ℕ → ℕ → ℚ) (pixels : List ℕ)
    (width height : ℕ) (gx gy : List ℤ) (n : ℕ) : ℕ :=
  if interiorPix width height (n / 4 / width) (n / 4 % width) then
    if n % 4 = 3 then pixels.getD n 0
    else
      sqrtStoreU8 (gradSumWith gray pixels width gx (n / 4 / width) (n / 4 % width) ^ 2 +
        gradSumWith gray pixels width gy (n / 4 / width) (n / 4 % width) ^ 2)
  else 0

/-- Modelled from the spec (§4.2): the parametrized gradient operator
as a whole output buffer. -/
def applyGradientWith (gray : ℕ → ℕ → ℕ → ℚ) (pixels : List ℕ)
    (width height : ℕ) (gx gy : List ℤ) : List ℕ :=
  (List.range pixels.length).map (applyGradientWithAt gray pixels width height gx gy)

/-! ## `HistogramEqualization` module -/

/-- One entry of the grayscale working array of
`HistogramEqualization.equalize`: the luma stored into a
`Uint8ClampedArray` (so rounded ties-to-even, unlike the
`Math.round` in the histogram helpers). -/
def grayU8 (r g b : ℕ) : ℕ := clampRoundU8 (luma r g b)

/-- The gray value `equalize` computes for pixel index `i`. -/
def equalizeGray (pixels : List ℕ) (i : ℕ) : ℕ :=
  grayU8 (pixels.getD (4 * i) 0) (pixels.getD (4 * i + 1) 0) (pixels.getD (4 * i + 2) 0)

/-- Histogram bin `b` of `equalize`: how many of the first
`width·height` pixels have gray value `b`. -/
def eqHistogram (pixels : List ℕ) (width height b : ℕ) : ℕ :=
  ((Finset.range (width * height)).filter fun i => equalizeGray pixels i = b).card

/-- Cumulative distribution of `equalize` at bin `b`. -/
def eqCdf (pixels : List ℕ) (width height b : ℕ) : ℕ :=
  ∑ t ∈ Finset.range (b + 1), eqHistogram pixels width height t

/-- Entry `v` of the normalized-CDF lookup table `pdfNorm` of
`equalize` (`Math.round(((cdf[v] − cdfMin) / (numPixels − cdfMin)) * 255)`
stored into a `Uint8ClampedArray`); reads past index 255 store `0`. -/
def pdfNorm (pixels : List ℕ) (width height v : ℕ) : ℕ :=
  if v < 256 then
    clampRoundU8 ((((eqCdf pixels width height v : ℚ) - eqCdf pixels width height 0) /
      ((width * height : ℕ) - (eqCdf pixels width height 0 : ℚ))) * 255)
  else 0

/-- `HistogramEqualization.equalize(pixels, width, height)` (after its
parameter validation): apply `pdfNorm` to each of R, G, B and copy
alpha, over the whole buffer length. -/
def equalizeAt (pixels : List ℕ) (width height : ℕ) (n : ℕ) : ℕ :=
  if n % 4 = 3 then pixels.getD n 0
  else pdfNorm pixels width height (pixels.getD n 0)

/-- `HistogramEqualization.equalize` as a whole output buffer. -/
def equalize (pixels : List ℕ) (width height : ℕ) : List ℕ :=
  (List.range pixels.length).map (equalizeAt pixels width height)

/-- `HistogramEqualization.getHistogram(pixels, width, height)` (after
its parameter validation): the 256-bin luma histogram of the first
`width·height` pixels; a bin counts the pixels whose rounded luma
equals its index (rounded lumas past 255 would be dropped, matching
the out-of-range `Uint32Array` write of the source). -/
def getHistogram (pixels : List ℕ) (width height : ℕ) : List ℕ :=
  (List.range 256).map fun b =>
    ((Finset.range (width * height)).filter fun i =>
      binOf (pixels.getD (4 * i) 0) (pixels.getD (4 * i + 1) 0)
        (pixels.getD (4 * i + 2) 0) = b).card

/-- `HistogramEqualization.getTileHistogram(pixels, width, x1, y1, x2, y2)`:
the 256-bin luma histogram of the pixels of the half-open rectangle. -/
def getTileHistogram (pixels : List ℕ) (width x1 y1 x2 y2 : ℕ) : List ℕ :=
  (List.range 256).map fun b =>
    ∑ y ∈ Finset.Ico y1 y2, ∑ x ∈ Finset.Ico x1 x2,
      if binOf (pixels.getD ((y * width + x) * 4) 0)
          (pixels.getD ((y * width + x) * 4 + 1) 0)
          (pixels.getD ((y * width + x) * 4 + 2) 0) = b then 1 else 0

/-- The clipping threshold of `clipHistogram`:
`limit = Math.round(clipLimit * avgBinValue)` where `avgBinValue` is
the bin sum divided by the number of bins. -/
def clipLimitValue (histogram : List ℕ) (clipLimit : ℚ) : ℤ :=
  jsRound (clipLimit * ((histogram.sum : ℚ) / histogram.length))

/-- The per-bin update of `clipHistogram`: a bin above the limit is
overwritten with the limit (a `Uint32Array` store). -/
def clipBin (limit : ℤ) (v : ℕ) : ℕ := if limit < (v : ℤ) then toUint32 limit else v

/-- `HistogramEqualization.clipHistogram(histogram, clipLimit)`.
The source mutates its argument in place; the embedding returns the
mutated array. -/
def clipHistogram (histogram : List ℕ) (clipLimit : ℚ) : List ℕ :=
  histogram.map (clipBin (clipLimitValue histogram clipLimit))

/-- The cumulative distribution `calculateLUT` builds: sum of the bins
up to and including `i`. -/
def histCdf (histogram : List ℕ) (i : ℕ) : ℕ :=
  ∑ t ∈ Finset.range (i + 1), histogram.getD t 0

/-- The denominator `cdf[255] − cdf[0]` of the LUT normalization in
`calculateLUT` — the quantity the source divides by without a guard. -/
def lutDenominator (histogram : List ℕ) : ℚ :=
  (histCdf histogram 255 : ℚ) - histCdf histogram 0

/-- `HistogramEqualization.calculateLUT(histogram)`:
`lut[i] = Math.round(((cdf[i] − cdf[0]) / (cdf[255] − cdf[0])) * 255)`
stored into a `Uint8ClampedArray`.  When the denominator is zero the
numerator is too, and the `0/0 = 0` of `ℚ` coincides with the
`NaN`-stored-as-`0` of the source. -/
def calculateLUT (histogram : List ℕ) : List ℕ :=
  (List.range 256).map fun i =>
    clampRoundU8 ((((histCdf histogram i : ℚ) - histCdf histogram 0) /
      lutDenominator histogram) * 255)

/-- `Math.ceil(extent / gridSize)`: the tile edge length of `clahe`. -/
def tileDim (extent gridSize : ℕ) : ℕ := (extent + gridSize - 1) / gridSize

/-- Lower bound of tile `t` along one axis (`tileX * tileWidth`). -/
def tileLo (t dim : ℕ) : ℕ := t * dim

/-- Upper bound of tile `t` along one axis
(`Math.min((tileX + 1) * tileWidth, width)`). -/
def tileHi (t dim bound : ℕ) : ℕ := min ((t + 1) * dim) bound

/-- Pixel `(x, y)` lies in grid tile `t = (tileX, tileY)` of the
`clahe` partition of a `width × height` buffer. -/
def inTilePix (width height gridSize : ℕ) (t : ℕ × ℕ) (x y : ℕ) : Prop :=
  tileLo t.1 (tileDim width gridSize) ≤ x ∧
    x < tileHi t.1 (tileDim width gridSize) width ∧
    tileLo t.2 (tileDim height gridSize) ≤ y ∧
    y < tileHi t.2 (tileDim height gridSize) height

instance (width height gridSize : ℕ) (t : ℕ × ℕ) (x y : ℕ) :
    Decidable (inTilePix width height gridSize t x y) := by
  unfold inTilePix; infer_instance

/-- The buffer indices the `clahe` tile loop with bounds
`x1 ≤ x < x2`, `y1 ≤ y < y2` writes: `n = (y·width + x)·4 + c`. -/
def inTileIdx (width x1 x2 y1 y2 n : ℕ) : Prop :=
  x1 ≤ n / 4 % width ∧ n / 4 % width < x2 ∧
    y1 ≤ n / 4 / width ∧ n / 4 / width < y2

instance (width x1 x2 y1 y2 n : ℕ) :
    Decidable (inTileIdx width x1 x2 y1 y2 n) := by
  unfold inTileIdx; infer_instance

/-- The per-tile lookup table of `clahe`: histogram, clip, LUT. -/
def tileLUT (pixels : List ℕ) (width : ℕ) (clip : ℚ) (x1 y1 x2 y2 : ℕ) : List ℕ :=
  calculateLUT (clipHistogram (getTileHistogram pixels width x1 y1 x2 y2) clip)

/-- One iteration of the `clahe` tile loop as an update of the output
index function: inside the tile rectangle, remap R, G, B through the
tile's LUT and copy alpha; elsewhere keep the accumulated output. -/
def writeTile (pixels : List ℕ) (width : ℕ) (clip : ℚ) (x1 y1 x2 y2 : ℕ)
    (res : ℕ → ℕ) : ℕ → ℕ := fun n =>
  if inTileIdx width x1 x2 y1 y2 n then
    if n % 4 = 3 then pixels.getD n 0
    else (tileLUT pixels width clip x1 y1 x2 y2).getD (pixels.getD n 0) 0
  else res n

/-- The tile visit order of `clahe`: `tileY` outer, `tileX` inner. -/
def gridTiles (gridSize : ℕ) : List (ℕ × ℕ) :=
  (List.range gridSize).flatMap fun tY => (List.range gridSize).map fun tX => (tX, tY)

/-- The iteration of the `clahe` tile loop for tile `t`, with the tile
bounds `x1 = tileX·tileWidth`, …, computed as in the source. -/
def claheTileStep (pixels : List ℕ) (width height : ℕ) (clip : ℚ) (gridSize : ℕ)
    (res : ℕ → ℕ) (t : ℕ × ℕ) : ℕ → ℕ :=
  writeTile pixels width clip
    (tileLo t.1 (tileDim width gridSize)) (tileLo t.2 (tileDim height gridSize))
    (tileHi t.1 (tileDim width gridSize) width)
    (tileHi t.2 (tileDim height gridSize) height) res

/-- The value the `clahe` tile loop writes at buffer index `n` when it
processes tile `t`: alpha copied, R, G, B remapped through the tile's
LUT. -/
def tileValue (pixels : List ℕ) (width height : ℕ) (clip : ℚ) (gridSize : ℕ)
    (t : ℕ × ℕ) (n : ℕ) : ℕ :=
  if n % 4 = 3 then pixels.getD n 0
  else
    (tileLUT pixels width clip
      (tileLo t.1 (tileDim width gridSize)) (tileLo t.2 (tileDim height gridSize))
      (tileHi t.1 (tileDim width gridSize) width)
      (tileHi t.2 (tileDim height gridSize) height)).getD (pixels.getD n 0) 0

/-- `HistogramEqualization.clahe(pixels, width, height, clipLimit, gridSize)`
(after its parameter validation): visit each of the `gridSize²` tiles,
remapping the tile's pixels through its clipped-histogram LUT, over a
zero-initialized output. -/
def clahe (pixels : List ℕ) (width height : ℕ) (clip : ℚ) (gridSize : ℕ) : List ℕ :=
  (List.range pixels.length).map
    ((gridTiles gridSize).foldl (claheTileStep pixels width height clip gridSize)
      fun _ => 0)

/-- `HistogramEqualization.gammaCorrection(pixels, gamma)` (after its
parameter validation).  The 256-entry table
`table[i] = Math.round((i/255) ** (1/gamma) * 255)` is transcendental,
so the embedding takes the precomputed table as an argument; the
channel application and alpha copy follow the source (a channel read
past index 255 stores `0`). -/
def gammaCorrection (pixels : List ℕ) (table : ℕ → ℕ) : List ℕ :=
  (List.range pixels.length).map fun n =>
    if n % 4 = 3 then pixels.getD n 0
    else if pixels.getD n 0 < 256 then table (pixels.getD n 0) else 0

/-! ## Validation wrappers

Each public operation first validates its arguments and throws
`new Error(...)` on a violation.  A missing buffer is `none`; the
`typeof` checks on numeric parameters always pass in the typed
embedding.  `sigmoidContrast` is the one operation whose validation
does not test the buffer: with a missing buffer it reaches
`pixels.length` and fails with a `TypeError` instead. -/

/-- A JavaScript exception of this core: the invalid-input `Error`s the
validations throw, or an engine `TypeError`. -/
inductive JsError where
  | invalidInput : String → JsError
  | typeError : String → JsError

/-- Whether an operation outcome is the invalid-input failure. -/
def isInvalidInput (e : Except JsError (List ℕ)) : Bool :=
  match e with
  | .error (.invalidInput _) => true
  | _ => false

/-- `HistogramEqualization.equalize` with its validation. -/
def equalizeE (pixels : Option (List ℕ)) (width height : ℕ) : Except JsError (List ℕ) :=
  match pixels with
  | none => .error (.invalidInput "Invalid equalization parameters")
  | some px => .ok (equalize px width height)

/-- `HistogramEqualization.clahe` with its validation. -/
def claheE (pixels : Option (List ℕ)) (width height : ℕ) (clip : ℚ)
    (gridSize : ℕ) : Except JsError (List ℕ) :=
  match pixels with
  | none => .error (.invalidInput "Invalid CLAHE parameters")
  | some px => .ok (clahe px width height clip gridSize)

/-- `HistogramEqualization.getHistogram` with its validation. -/
def getHistogramE (pixels : Option (List ℕ)) (width height : ℕ) : Except JsError (List ℕ) :=
  match pixels with
  | none => .error (.invalidInput "Invalid histogram parameters")
  | some px => .ok (getHistogram px width height)

/-- `HistogramEqualization.gammaCorrection` with its validation
(`!pixels || typeof gamma !== 'number' || gamma <= 0`). -/
def gammaCorrectionE (pixels : Option (List ℕ)) (gamma : ℚ)
    (table : ℕ → ℕ) : Except JsError (List ℕ) :=
  match pixels with
  | none => .error (.invalidInput "Invalid gamma value")
  | some px =>
    if gamma ≤ 0 then .error (.invalidInput "Invalid gamma value")
    else .ok (gammaCorrection px table)

/-- `HistogramEqualization.sigmoidContrast(pixels, contrast)`.

The source computes `factor = Math.exp(Math.abs(contrast) * 4)`, a
transcendental quantity, so the factor is passed as an explicit
argument; when `contrast = 0` the source's factor is `exp 0 = 1`, and
no branch of the loop body ever reads it.  For each pixel the three
color channels go through the contrast branches and are stored as
`Math.max(0, Math.min(255, Math.round(value * 255)))`; the alpha
channel is copied. -/
def sigmoidContrast (pixels : List ℕ) (contrast factor : ℚ) : List ℕ :=
  (List.range pixels.length).map fun n =>
    if n % 4 = 3 then pixels.getD n 0
    else
      let value : ℚ := pixels.getD n 0
      let value : ℚ :=
        if 0 < contrast then value / 255 * factor
        else if contrast < 0 then value / 255 / factor
        else value
      (max 0 (min 255 (jsRound (value * 255)))).toNat

/-- `HistogramEqualization.sigmoidContrast` with its validation: the
check tests only the contrast; a missing buffer then fails at
`pixels.length` with a `TypeError`, not the invalid-input `Error`. -/
def sigmoidContrastE (pixels : Option (List ℕ)) (contrast factor : ℚ) :
    Except JsError (List ℕ) :=
  if contrast < -1 ∨ 1 < contrast then
    .error (.invalidInput "Contrast must be between -1 and 1")
  else
    match pixels with
    | none => .error (.typeError "Cannot read properties of null (reading length)")
    | some px => .ok (sigmoidContrast px contrast factor)

/-- `EdgeDetection.sobel` with its validation. -/
def sobelE (pixels : Option (List ℕ)) (width height : ℕ) : Except JsError (List ℕ) :=
  match pixels with
  | none => .error (.invalidInput "Invalid edge detection parameters")
  | some px => .ok (sobel px width height)

/-- `EdgeDetection.prewitt` with its validation. -/
def prewittE (pixels : Option (List ℕ)) (width height : ℕ) : Except JsError (List ℕ) :=
  match pixels with
  | none => .error (.invalidInput "Invalid edge detection parameters")
  | some px => .ok (prewitt px width height)

/-- `EdgeDetection.laplacian` with its validation. -/
def laplacianE (pixels : Option (List ℕ)) (width height : ℕ) : Except JsError (List ℕ) :=
  match pixels with
  | none => .error (.invalidInput "Invalid edge detection parameters")
  | some px => .ok (laplacian px width height)

/-- `EdgeDetection.canny` with its validation. -/
def cannyE (pixels : Option (List ℕ)) (width height : ℕ) (low high : ℚ) :
    Except JsError (List ℕ) :=
  match pixels with
  | none => .error (.invalidInput "Invalid edge detection parameters")
  | some px => .ok (canny px width height low high)

/-! ## Concrete buffers used in counterexamples -/

/-- A 3×3 buffer whose pixels are transparent-free black:
`(0,0,0,255)` everywhere. -/
def alphaBuf3x3 : List ℕ :=
  (List.range 36).map fun n => if n % 4 = 3 then 255 else 0

/-- A 3×3 buffer whose left column is `(30,0,0,0)` and which is zero
elsewhere; the channel-mean gray of `(30,0,0)` is `10`, its luma is
`8.97`, so the two grayscale conventions give different Sobel bytes. -/
def lumaProbe3x3 : List ℕ :=
  [30, 0, 0, 0, 0, 0, 0, 0, 0, 0, 0, 0,
   30, 0, 0, 0, 0, 0, 0, 0, 0, 0, 0, 0,
   30, 0, 0, 0, 0, 0, 0, 0, 0, 0, 0, 0]

/-- A 2×2 buffer whose top-left pixel is `(9,9,9,9)` and which is zero
elsewhere. -/
def tileProbeA : List ℕ := [9, 9, 9, 9, 0, 0, 0, 0, 0, 0, 0, 0, 0, 0, 0, 0]

/-- A 2×2 buffer whose top-left pixel is `(1,1,1,1)` and which is zero
elsewhere: it agrees with `tileProbeA` outside tile `(0,0)` of the
2×2 grid. -/
def tileProbeB : List ℕ := [1, 1, 1, 1, 0, 0, 0, 0, 0, 0, 0, 0, 0, 0, 0, 0]

/-! ## Helper lemmas -/

/-- Reading an output buffer built as `(List.range m).map f`. -/
theorem getD_map_range (f : ℕ → ℕ) {m n : ℕ} (h : n < m) :
    ((List.range m).map f).getD n 0 = f n := by
  rw [List.getD_eq_getElem _ _ (by simpa using h)]
  simp

/-- Reading past the end of an output buffer. -/
theorem getD_map_range_ge (f : ℕ → ℕ) {m n : ℕ} (h : m ≤ n) :
    ((List.range m).map f).getD n 0 = 0 := by
  rw [List.getD_eq_default]
  simpa using h

theorem map_range_congr {f g : ℕ → ℕ} {m : ℕ} (h : ∀ n < m, f n = g n) :
    (List.range m).map f = (List.range m).map g := by
  apply List.map_congr_left
  intro n hn
  exact h n (List.mem_range.mp hn)

theorem sum_map_range (f : ℕ → ℕ) (m : ℕ) :
    ((List.range m).map f).sum = ∑ n ∈ Finset.range m, f n := by
  induction m with
  | zero => simp
  | succ k ih => rw [List.range_succ, Finset.sum_range_succ, ← ih]; simp

/-- `Math.round (a / b)` on a nonnegative fraction, as a natural-number
division. -/
theorem jsRound_natCast_div (a b : ℕ) (hb : 0 < b) :
    jsRound ((a : ℚ) / b) = ((2 * a + b) / (2 * b) : ℕ) := by
  have h : (a : ℚ) / b + 1/2 = ((2 * a + b : ℕ) : ℚ) / ((2 * b : ℕ) : ℚ) := by
    have hb' : (b : ℚ) ≠ 0 := Nat.cast_ne_zero.mpr hb.ne'
    push_cast
    field_simp
    ring
  rw [jsRound, h, Rat.floor_natCast_div_natCast]
  exact (Int.ofNat_tdiv _ _).symm

/-! ## Claims -/

/-- C1.  The spec (and the module's own test `should be identity at 0`)
promise that `sigmoidContrast(buffer, 0)` is a bit-exact identity.  The
code, however, skips the `/255` normalization on the `contrast == 0`
path while still multiplying by `255` before the store, so every
nonzero channel byte saturates to `255`: on the one-pixel buffer
`[1, 0, 0, 7]` the result is `[255, 0, 0, 7]`, differing from the
input in the red channel. -/
theorem sigmoidContrast_zero_saturates_nonzero_channels :
    (sigmoidContrast [1, 0, 0, 7] 0 1).getD 0 0 = 255 ∧
      (sigmoidContrast [1, 0, 0, 7] 0 1).getD 1 0 = 0 ∧
      (sigmoidContrast [1, 0, 0, 7] 0 1).getD 2 0 = 0 ∧
      (sigmoidContrast [1, 0, 0, 7] 0 1).getD 3 0 = 7 ∧
      [1, 0, 0, 7].getD 0 0 = 1 := by
  refine ⟨?_, ?_, ?_, ?_, by decide⟩ <;>
    · rw [sigmoidContrast, getD_map_range _ (by decide)]
      norm_num [jsRound]
      try decide

theorem sum_map_le_sum (l : List ℕ) (f : ℕ → ℕ) (h : ∀ v, f v ≤ v) :
    (l.map f).sum ≤ l.sum := by
  induction l with
  | nil => simp
  | cons a t ih => simpa using Nat.add_le_add (h a) ih

theorem lt_div_add_one_mul (a b : ℕ) (hb : 0 < b) : a < (a / b + 1) * b := by
  calc a = b * (a / b) + a % b := (Nat.div_add_mod a b).symm
    _ < b * (a / b) + b := Nat.add_lt_add_left (Nat.mod_lt a hb) _
    _ = (a / b + 1) * b := by ring

/-- A positive extent needs a positive tile edge. -/
theorem tileDim_pos {w g : ℕ} (hw : 0 < w) (hg : 0 < g) : 0 < tileDim w g := by
  rw [tileDim]
  rw [Nat.lt_iff_add_one_le, Nat.le_div_iff_mul_le hg]
  omega

/-- `gridSize` tiles of edge `⌈w / gridSize⌉` cover an extent of `w`. -/
theorem le_mul_tileDim (w g : ℕ) (hg : 0 < g) : w ≤ g * tileDim w g := by
  rcases Nat.eq_zero_or_pos w with rfl | hw
  · exact Nat.zero_le _
  · have h1 : w + g - 1 < ((w + g - 1) / g + 1) * g := lt_div_add_one_mul _ _ hg
    rw [add_mul, one_mul] at h1
    rw [tileDim, mul_comm]
    omega

/-- A pixel determines its containing tile along one axis. -/
theorem tile_coord_eq {t dim bound x : ℕ} (h1 : tileLo t dim ≤ x)
    (h2 : x < tileHi t dim bound) : x / dim = t := by
  rw [tileLo] at h1
  rw [tileHi] at h2
  exact Nat.div_eq_of_lt_le (by omega) (lt_of_lt_of_le h2 (by omega))

/-- A pixel lies in at most one tile rectangle, the one indexed by the
divisions of its coordinates by the tile edges. -/
theorem inTilePix_eq {width height gridSize : ℕ} {t : ℕ × ℕ} {x y : ℕ}
    (h : inTilePix width height gridSize t x y) :
    t = (x / tileDim width gridSize, y / tileDim height gridSize) := by
  obtain ⟨h1, h2, h3, h4⟩ := h
  exact Prod.ext (tile_coord_eq h1 h2).symm (tile_coord_eq h3 h4).symm

/-- Every pixel of the buffer lies in the tile indexed by the divisions
of its coordinates by the tile edges. -/
theorem inTilePix_self {width height gridSize x y : ℕ}
    (hw : 0 < width) (hh : 0 < height) (hg : 0 < gridSize)
    (hx : x < width) (hy : y < height) :
    inTilePix width height gridSize
      (x / tileDim width gridSize, y / tileDim height gridSize) x y :=
  ⟨Nat.div_mul_le_self x _,
    lt_min (lt_div_add_one_mul x _ (tileDim_pos hw hg)) hx,
    Nat.div_mul_le_self y _,
    lt_min (lt_div_add_one_mul y _ (tileDim_pos hh hg)) hy⟩

/-- The tile containing a buffer pixel has in-range grid coordinates. -/
theorem tile_index_lt {width gridSize x : ℕ} (hg : 0 < gridSize)
    (hw : 0 < width) (hx : x < width) :
    x / tileDim width gridSize < gridSize :=
  (Nat.div_lt_iff_lt_mul (tileDim_pos hw hg)).mpr
    (lt_of_lt_of_le hx (le_mul_tileDim width gridSize hg))

/-- C5.  With positive dimensions and grid size, every pixel of the
buffer lies in exactly one of the `gridSize²` tiles of the `clahe`
partition (edge tiles clipped to the buffer bounds), and any two
distinct tile rectangles are disjoint. -/
theorem clahe_tiles_partition (width height gridSize : ℕ)
    (hw : 0 < width) (hh : 0 < height) (hg : 0 < gridSize) :
    (∀ x < width, ∀ y < height, ∃! t : ℕ × ℕ,
      t.1 < gridSize ∧ t.2 < gridSize ∧ inTilePix width height gridSize t x y) ∧
    (∀ t u : ℕ × ℕ, t ≠ u → ∀ x y, inTilePix width height gridSize t x y →
      ¬inTilePix width height gridSize u x y) := by
  constructor
  · intro x hx y hy
    exact ⟨(x / tileDim width gridSize, y / tileDim height gridSize),
      ⟨tile_index_lt hg hw hx, tile_index_lt hg hh hy, inTilePix_self hw hh hg hx hy⟩,
      fun t ht => inTilePix_eq ht.2.2⟩
  · intro t u htu x y ht hu
    exact htu ((inTilePix_eq ht).trans (inTilePix_eq hu).symm)

/-- Witness for C5: a 3×3 buffer with a 2×2 grid (tile edge
`⌈3/2⌉ = 2`, so the last row and column of tiles are clipped). -/
theorem clahe_tiles_partition_witness :
    (∀ x < 3, ∀ y < 3, ∃! t : ℕ × ℕ,
      t.1 < 2 ∧ t.2 < 2 ∧ inTilePix 3 3 2 t x y) ∧
    (∀ t u : ℕ × ℕ, t ≠ u → ∀ x y, inTilePix 3 3 2 t x y →
      ¬inTilePix 3 3 2 u x y) :=
  clahe_tiles_partition 3 3 2 (by norm_num) (by norm_num) (by norm_num)

/-- The luma of a pixel with in-range channels is at most 255. -/
theorem luma_le_255 {r g b : ℕ} (hr : r ≤ 255) (hg : g ≤ 255) (hb : b ≤ 255) :
    luma r g b ≤ 255 := by
  have hr' : (r : ℚ) ≤ 255 := by exact_mod_cast hr
  have hg' : (g : ℚ) ≤ 255 := by exact_mod_cast hg
  have hb' : (b : ℚ) ≤ 255 := by exact_mod_cast hb
  rw [luma]
  norm_num
  linarith

theorem jsRound_le_255 {q : ℚ} (h : q ≤ 255) : jsRound q ≤ 255 := by
  rw [jsRound]
  have h2 : q + 1/2 ≤ 255 + 1/2 := by linarith
  calc ⌊q + 1/2⌋ ≤ ⌊(255 : ℚ) + 1/2⌋ := Int.floor_le_floor h2
    _ = 255 := by norm_num

/-- The histogram bin of a pixel with in-range channels is below 256. -/
theorem binOf_lt_256 {r g b : ℕ} (hr : r ≤ 255) (hg : g ≤ 255) (hb : b ≤ 255) :
    binOf r g b < 256 := by
  have h := jsRound_le_255 (luma_le_255 hr hg hb)
  rw [binOf]
  omega

/-- C8.  For a buffer long enough for its stated dimensions and with
byte-range channel values, the 256 bins of `getHistogram` sum to
exactly `width·height`: each pixel's rounded luma lands in exactly one
bin below 256. -/
theorem getHistogram_sum_eq (pixels : List ℕ) (width height : ℕ)
    (hlen : width * height * 4 ≤ pixels.length)
    (hbound : ∀ k, pixels.getD k 0 ≤ 255) :
    (getHistogram pixels width height).sum = width * height := by
  rw [getHistogram, sum_map_range]
  have hswap :
      ∑ b ∈ Finset.range 256, ((Finset.range (width * height)).filter fun i =>
        binOf (pixels.getD (4 * i) 0) (pixels.getD (4 * i + 1) 0)
          (pixels.getD (4 * i + 2) 0) = b).card =
      ∑ i ∈ Finset.range (width * height), ∑ b ∈ Finset.range 256,
        if binOf (pixels.getD (4 * i) 0) (pixels.getD (4 * i + 1) 0)
          (pixels.getD (4 * i + 2) 0) = b then 1 else 0 := by
    rw [Finset.sum_comm]
    refine Finset.sum_congr rfl fun b _ => ?_
    rw [Finset.card_filter]
  rw [hswap]
  have hone : ∀ i ∈ Finset.range (width * height),
      (∑ b ∈ Finset.range 256,
        if binOf (pixels.getD (4 * i) 0) (pixels.getD (4 * i + 1) 0)
          (pixels.getD (4 * i + 2) 0) = b then 1 else 0) = 1 := by
    intro i _
    rw [Finset.sum_ite_eq]
    rw [if_pos]
    exact Finset.mem_range.mpr (binOf_lt_256 (hbound _) (hbound _) (hbound _))
  rw [Finset.sum_congr rfl hone]
  simp

/-- Witness for C8: the single-pixel black buffer. -/
theorem getHistogram_sum_eq_witness :
    (getHistogram [0, 0, 0, 0] 1 1).sum = 1 * 1 := by
  refine getHistogram_sum_eq [0, 0, 0, 0] 1 1 (by norm_num) ?_
  intro k
  rcases Nat.lt_or_ge k 4 with hk | hk
  · interval_cases k <;> decide
  · rw [List.getD_eq_default _ _ (by simpa using hk)]
    norm_num

/-- C9 (counterexample).  The claim says every public operation raises
the invalid-input failure on a missing buffer; `sigmoidContrast`'s
validation only tests the contrast, so with a missing buffer and the
valid contrast `0` it instead fails at `pixels.length` with a
`TypeError`. -/
theorem sigmoidContrastE_none_not_invalidInput :
    isInvalidInput (sigmoidContrastE none 0 1) = false := by
  have h : ¬((0 : ℚ) < -1 ∨ (1 : ℚ) < 0) := by push_neg; norm_num
  rw [sigmoidContrastE, if_neg h]
  rfl

/-- C9 (amended).  With a missing (`null`/`undefined`) buffer, each of
`equalize`, `clahe`, `getHistogram`, `gammaCorrection`, `sobel`,
`prewitt`, `laplacian` and `canny` raises its invalid-input failure
synchronously, before producing any output buffer; `sigmoidContrast`
alone validates only the contrast, and with an in-range contrast a
missing buffer surfaces as an engine `TypeError` (still before any
output is produced), not as the invalid-input failure. -/
theorem nullBuffer_raises_invalidInput :
    (∀ w h : ℕ, isInvalidInput (equalizeE none w h) = true) ∧
      (∀ (w h : ℕ) (clip : ℚ) (g : ℕ), isInvalidInput (claheE none w h clip g) = true) ∧
      (∀ w h : ℕ, isInvalidInput (getHistogramE none w h) = true) ∧
      (∀ (gamma : ℚ) (table : ℕ → ℕ),
        isInvalidInput (gammaCorrectionE none gamma table) = true) ∧
      (∀ w h : ℕ, isInvalidInput (sobelE none w h) = true) ∧
      (∀ w h : ℕ, isInvalidInput (prewittE none w h) = true) ∧
      (∀ w h : ℕ, isInvalidInput (laplacianE none w h) = true) ∧
      (∀ (w h : ℕ) (low high : ℚ), isInvalidInput (cannyE none w h low high) = true) ∧
      (∀ contrast factor : ℚ, -1 ≤ contrast → contrast ≤ 1 →
        sigmoidContrastE none contrast factor =
          .error (.typeError "Cannot read properties of null (reading length)")) := by
  refine ⟨fun _ _ => rfl, fun _ _ _ _ => rfl, fun _ _ => rfl, fun _ _ => rfl,
    fun _ _ => rfl, fun _ _ => rfl, fun _ _ => rfl, fun _ _ _ _ => rfl, ?_⟩
  intro contrast factor h1 h2
  have h : ¬(contrast < -1 ∨ 1 < contrast) := by push_neg; exact ⟨h1, h2⟩
  simp [sigmoidContrastE, h]

/-- Witness for C9 (amended), at the valid contrast `0`. -/
theorem nullBuffer_raises_invalidInput_witness :
    isInvalidInput (equalizeE none 1 1) = true ∧
      sigmoidContrastE none 0 1 =
        .error (.typeError "Cannot read properties of null (reading length)") :=
  ⟨nullBuffer_raises_invalidInput.1 1 1,
    nullBuffer_raises_invalidInput.2.2.2.2.2.2.2.2 0 1 (by norm_num) (by norm_num)⟩

/-- C10 (counterexample).  The claim says no bin of `clipHistogram`
ever increases.  With `clipLimit = -256` on the histogram
`[1, 0, …, 0]` (256 bins, sum 1) the limit is
`Math.round(-256/256) = -1`; bin 0 (value 1) exceeds it and the
`Uint32Array` store wraps `-1` to `2^32 − 1 = 4294967295`, so the bin
increases from `1`. -/
theorem clipHistogram_negative_limit_grows_bin :
    (clipHistogram (1 :: List.replicate 255 0) (-256)).getD 0 0 = 4294967295 := by
  have hlim : clipLimitValue (1 :: List.replicate 255 0) (-256) = -1 := by
    have hsum : (1 :: List.replicate 255 0 : List ℕ).sum = 1 := by
      rw [List.sum_cons, List.sum_replicate]
      simp
    have hlen : (1 :: List.replicate 255 0 : List ℕ).length = 256 := by
      rw [List.length_cons, List.length_replicate]
    rw [clipLimitValue, hsum, hlen]
    norm_num [jsRound]
  rw [clipHistogram, hlim]
  norm_num [clipBin, toUint32]
  decide

/-- C10 (amended).  Whenever the computed limit
`Math.round(clipLimit · sum / numBins)` is nonnegative and below
`2^32` (in particular for any nonnegative `clipLimit` on a realistic
histogram), `clipHistogram` keeps the bin count, caps every bin at the
limit (`min`), never increases a bin, and never increases the total
sum.  (The source's in-place mutation is modeled by returning the
updated array.) -/
theorem clipHistogram_caps_bins (histogram : List ℕ) (clipLimit : ℚ)
    (h0 : 0 ≤ clipLimitValue histogram clipLimit)
    (h32 : clipLimitValue histogram clipLimit < 2 ^ 32) :
    (clipHistogram histogram clipLimit).length = histogram.length ∧
      (∀ i < histogram.length,
        (clipHistogram histogram clipLimit).getD i 0 =
          min (histogram.getD i 0) (clipLimitValue histogram clipLimit).toNat) ∧
      (∀ i, (clipHistogram histogram clipLimit).getD i 0 ≤ histogram.getD i 0) ∧
      (clipHistogram histogram clipLimit).sum ≤ histogram.sum := by
  set L := clipLimitValue histogram clipLimit with hL
  have hclip : ∀ v : ℕ, clipBin L v = min v L.toNat := by
    intro v
    rw [clipBin]
    split
    · next hv =>
      have : toUint32 L = L.toNat := by
        rw [toUint32, Int.emod_eq_of_lt h0 h32]
      rw [this]
      omega
    · next hv => omega
  have hle : ∀ v : ℕ, clipBin L v ≤ v := fun v => by rw [hclip]; omega
  refine ⟨by simp [clipHistogram], ?_, ?_, ?_⟩
  · intro i hi
    rw [clipHistogram, List.getD_eq_getElem _ _ (by simpa using hi),
      List.getElem_map, hclip, List.getD_eq_getElem _ _ hi]
  · intro i
    by_cases hi : i < histogram.length
    · rw [clipHistogram, List.getD_eq_getElem _ _ (by simpa using hi),
        List.getElem_map, List.getD_eq_getElem _ _ hi]
      exact hle _
    · rw [clipHistogram, List.getD_eq_default _ _ (by simpa using not_lt.mp hi)]
      exact Nat.zero_le _
  · exact sum_map_le_sum _ _ hle

/-- Witness for C10 (amended): histogram `[4, 0]`, `clipLimit = 1`,
limit `Math.round(4/2) = 2`. -/
theorem clipHistogram_caps_bins_witness :
    (clipHistogram [4, 0] 1).length = [4, 0].length ∧
      (∀ i < [4, 0].length,
        (clipHistogram [4, 0] 1).getD i 0 =
          min ([4, 0].getD i 0) (clipLimitValue [4, 0] 1).toNat) ∧
      (∀ i, (clipHistogram [4, 0] 1).getD i 0 ≤ [4, 0].getD i 0) ∧
      (clipHistogram [4, 0] 1).sum ≤ [4, 0].sum := by
  have h : clipLimitValue [4, 0] 1 = 2 := by
    rw [clipLimitValue]
    norm_num [jsRound]
  exact clipHistogram_caps_bins [4, 0] 1 (by rw [h]; norm_num) (by rw [h]; norm_num)

/-- The indices the tile loop writes are exactly the bytes of the
pixels of the tile rectangle. -/
theorem inTileIdx_iff (width height gridSize : ℕ) (t : ℕ × ℕ) (n : ℕ) :
    inTileIdx width (tileLo t.1 (tileDim width gridSize))
      (tileHi t.1 (tileDim width gridSize) width)
      (tileLo t.2 (tileDim height gridSize))
      (tileHi t.2 (tileDim height gridSize) height) n ↔
    inTilePix width height gridSize t (n / 4 % width) (n / 4 / width) :=
  Iff.rfl

theorem mem_gridTiles {g : ℕ} {t : ℕ × ℕ} :
    t ∈ gridTiles g ↔ t.1 < g ∧ t.2 < g := by
  rw [gridTiles]
  simp only [List.mem_flatMap, List.mem_map, List.mem_range]
  constructor
  · rintro ⟨tY, hY, tX, hX, rfl⟩
    exact ⟨hX, hY⟩
  · rintro ⟨hX, hY⟩
    exact ⟨t.2, hY, t.1, hX, rfl⟩

/-- Folding the tile loop over tiles none of which contains the pixel
of index `n` leaves the accumulated output at `n` unchanged. -/
theorem foldl_claheTileStep_not_mem (pixels : List ℕ) (width height : ℕ)
    (clip : ℚ) (gridSize : ℕ) (L : List (ℕ × ℕ)) (init : ℕ → ℕ) (n : ℕ)
    (h : ∀ t ∈ L, ¬inTilePix width height gridSize t (n / 4 % width) (n / 4 / width)) :
    (L.foldl (claheTileStep pixels width height clip gridSize) init) n = init n := by
  induction L using List.reverseRecOn with
  | nil => rfl
  | append_singleton L t ih =>
    rw [List.foldl_append, List.foldl_cons, List.foldl_nil, claheTileStep, writeTile]
    have h1 : ¬inTileIdx width (tileLo t.1 (tileDim width gridSize))
        (tileHi t.1 (tileDim width gridSize) width)
        (tileLo t.2 (tileDim height gridSize))
        (tileHi t.2 (tileDim height gridSize) height) n := h t (by simp)
    rw [if_neg h1]
    exact ih fun u hu => h u (by simp [hu])

/-- Folding the tile loop over a tile list in which only `t0` contains
the pixel of index `n` stores `t0`'s value at `n`. -/
theorem foldl_claheTileStep_mem (pixels : List ℕ) (width height : ℕ)
    (clip : ℚ) (gridSize : ℕ) (L : List (ℕ × ℕ)) (init : ℕ → ℕ) (n : ℕ)
    (t0 : ℕ × ℕ) (ht0 : t0 ∈ L)
    (hin : inTilePix width height gridSize t0 (n / 4 % width) (n / 4 / width))
    (huniq : ∀ t ∈ L,
      inTilePix width height gridSize t (n / 4 % width) (n / 4 / width) → t = t0) :
    (L.foldl (claheTileStep pixels width height clip gridSize) init) n =
      tileValue pixels width height clip gridSize t0 n := by
  induction L using List.reverseRecOn with
  | nil => cases ht0
  | append_singleton L t ih =>
    rw [List.foldl_append, List.foldl_cons, List.foldl_nil, claheTileStep, writeTile]
    by_cases htn : inTilePix width height gridSize t (n / 4 % width) (n / 4 / width)
    · have h1 : t = t0 := huniq t (by simp) htn
      subst h1
      have htn' : inTileIdx width (tileLo t.1 (tileDim width gridSize))
          (tileHi t.1 (tileDim width gridSize) width)
          (tileLo t.2 (tileDim height gridSize))
          (tileHi t.2 (tileDim height gridSize) height) n := htn
      rw [if_pos htn', tileValue]
    · have htn' : ¬inTileIdx width (tileLo t.1 (tileDim width gridSize))
          (tileHi t.1 (tileDim width gridSize) width)
          (tileLo t.2 (tileDim height gridSize))
          (tileHi t.2 (tileDim height gridSize) height) n := htn
      rw [if_neg htn']
      have ht0' : t0 ∈ L := by
        rcases List.mem_append.mp ht0 with h1 | h1
        · exact h1
        · rw [List.mem_singleton] at h1
          exact absurd hin (h1 ▸ htn)
      exact ih ht0' fun u hu h1 => huniq u (List.mem_append_left _ hu) h1

/-- The value of a `clahe` output byte: the LUT-remap (alpha copy) of
the unique tile containing the byte's pixel. -/
theorem clahe_getD_eq (pixels : List ℕ) (width height : ℕ) (clip : ℚ)
    (gridSize : ℕ) (hw : 0 < width) (hh : 0 < height) (hg : 0 < gridSize)
    (hlen : pixels.length = width * height * 4) (n : ℕ) (hn : n < pixels.length) :
    (clahe pixels width height clip gridSize).getD n 0 =
      tileValue pixels width height clip gridSize
        (n / 4 % width / tileDim width gridSize,
         n / 4 / width / tileDim height gridSize) n := by
  have hx : n / 4 % width < width := Nat.mod_lt _ hw
  have hy : n / 4 / width < height := by
    have hp : n / 4 < width * height := by omega
    exact (Nat.div_lt_iff_lt_mul hw).mpr (by rw [mul_comm] at hp; exact hp)
  rw [clahe, getD_map_range _ hn]
  exact foldl_claheTileStep_mem pixels width height clip gridSize _ _ n _
    (mem_gridTiles.mpr ⟨tile_index_lt hg hw hx, tile_index_lt hg hh hy⟩)
    (inTilePix_self hw hh hg hx hy)
    fun t _ ht => inTilePix_eq ht

theorem nat_sqrt_eq {m k : ℕ} (h1 : k * k ≤ m) (h2 : m < (k + 1) * (k + 1)) :
    Nat.sqrt m = k :=
  le_antisymm (Nat.lt_succ_iff.mp (Nat.sqrt_lt.mpr h2)) (Nat.le_sqrt.mpr h1)

theorem sqrtStoreU8_eq (s : ℚ) (k : ℕ) (hk : Nat.sqrt ⌊s⌋.toNat = k) :
    sqrtStoreU8 s = min 255
      (if 4 * s < ((2 * k + 1 : ℕ) : ℚ) ^ 2 then k
       else if ((2 * k + 1 : ℕ) : ℚ) ^ 2 < 4 * s then k + 1
       else if k % 2 = 0 then k else k + 1) := by
  rw [sqrtStoreU8, hk]

/-- C3 (counterexample).  The claim says Sobel converts each sampled
neighbor to grayscale with the luma weights.  On `lumaProbe3x3`
(left column `(30,0,0)`, rest black) the code stores byte
`√((4·10)²) = 40` at the interior pixel's red channel (index 16),
while the luma-weighted operator modelled from the spec stores
`round(√((4·8.97)²)) = 36`: the code uses the channel mean, not the
luma weights. -/
theorem sobel_not_luma_weighted :
    (sobel lumaProbe3x3 3 3).getD 16 0 = 40 ∧
      (applyGradientWith luma lumaProbe3x3 3 3 sobelGx sobelGy).getD 16 0 = 36 := by
  have hlen : lumaProbe3x3.length = 36 := by rw [lumaProbe3x3]; rfl
  have e1 : 16 / 4 / 3 = 1 := by norm_num
  have e2 : 16 / 4 % 3 = 1 := by norm_num
  constructor
  · rw [sobel, applyGradient, hlen, getD_map_range _ (by norm_num),
      applyGradientAt, if_pos (by decide), if_neg (by decide), e1, e2]
    have hgx : gradSum lumaProbe3x3 3 sobelGx 1 1 = -40 := by
      rw [gradSum, lumaProbe3x3]
      simp [Finset.sum_range_succ, grayMean, sobelGx]
      norm_num
    have hgy : gradSum lumaProbe3x3 3 sobelGy 1 1 = 0 := by
      rw [gradSum, lumaProbe3x3]
      simp [Finset.sum_range_succ, grayMean, sobelGy]
    rw [hgx, hgy, show ((-40 : ℚ)) ^ 2 + 0 ^ 2 = 1600 from by norm_num]
    have h : Nat.sqrt (⌊(1600 : ℚ)⌋).toNat = 40 := by
      rw [show (⌊(1600 : ℚ)⌋).toNat = 1600 from by
        rw [show ⌊(1600 : ℚ)⌋ = (1600 : ℤ) from by norm_num]; decide]
      exact nat_sqrt_eq (by norm_num) (by norm_num)
    rw [sqrtStoreU8_eq 1600 40 h]
    norm_num
  · rw [applyGradientWith, hlen, getD_map_range _ (by norm_num),
      applyGradientWithAt, if_pos (by decide), if_neg (by decide), e1, e2]
    have hgx : gradSumWith luma lumaProbe3x3 3 sobelGx 1 1 = -897/25 := by
      rw [gradSumWith, lumaProbe3x3]
      simp [Finset.sum_range_succ, luma, sobelGx]
      norm_num
    have hgy : gradSumWith luma lumaProbe3x3 3 sobelGy 1 1 = 0 := by
      rw [gradSumWith, lumaProbe3x3]
      simp [Finset.sum_range_succ, luma, sobelGy]
    rw [hgx, hgy]
    have h : Nat.sqrt (⌊((-897/25 : ℚ) ^ 2 + 0 ^ 2)⌋).toNat = 35 := by
      have hf : ⌊((-897/25 : ℚ) ^ 2 + 0 ^ 2)⌋ = 1287 := by norm_num
      rw [hf, show (1287 : ℤ).toNat = 1287 from by decide]
      exact nat_sqrt_eq (by norm_num) (by norm_num)
    rw [sqrtStoreU8_eq _ 35 h]
    norm_num

/-- C3 (amended).  Sobel and Prewitt convert each sampled neighbor to
grayscale with the unweighted channel mean `(R+G+B)/3` — the gradient
operator of the source coincides with the parametrized operator
instantiated at `grayMean` on every input. -/
theorem sobel_prewitt_use_mean_gray :
    (∀ (pixels : List ℕ) (width height : ℕ),
      sobel pixels width height =
        applyGradientWith grayMean pixels width height sobelGx sobelGy) ∧
    (∀ (pixels : List ℕ) (width height : ℕ),
      prewitt pixels width height =
        applyGradientWith grayMean pixels width height prewittGx prewittGy) :=
  ⟨fun _ _ _ => rfl, fun _ _ _ => rfl⟩

/-- C4.  Each output pixel of `canny` is classified by its Sobel
magnitude over the box-blurred buffer (`cannyMagSq` is the squared
magnitude; `sqrtGT s t` is the source's comparison `√s > t`):
above `high`, the pixel is white with alpha 255 (all four bytes 255);
in `(low, high]`, mid-gray 128 with alpha 255; at or below `low`, the
pixel keeps the zero-initialized default `(0,0,0,0)`. -/
theorem canny_dual_threshold_classification (pixels : List ℕ)
    (width height : ℕ) (low high : ℚ)
    (hlen : pixels.length = width * height * 4)
    (p : ℕ) (hp : p < width * height) (c : ℕ) (hc : c < 4) :
    (canny pixels width height low high).getD (4 * p + c) 0 =
      if sqrtGT (cannyMagSq pixels width height p) high then 255
      else if sqrtGT (cannyMagSq pixels width height p) low then
        if c = 3 then 255 else 128
      else 0 := by
  have hn : 4 * p + c < pixels.length := by omega
  have h1 : (4 * p + c) / 4 = p := by omega
  have h2 : (4 * p + c) % 4 = c := by omega
  rw [canny, getD_map_range _ hn, cannyAt, h1, h2, if_pos hp]

/-- Witness for C4: the one-pixel black buffer with the default
thresholds. -/
theorem canny_dual_threshold_classification_witness :
    (canny [0, 0, 0, 0] 1 1 50 150).getD (4 * 0 + 0) 0 =
      if sqrtGT (cannyMagSq [0, 0, 0, 0] 1 1 0) 150 then 255
      else if sqrtGT (cannyMagSq [0, 0, 0, 0] 1 1 0) 50 then
        if 0 = 3 then 255 else 128
      else 0 :=
  canny_dual_threshold_classification [0, 0, 0, 0] 1 1 50 150 (by norm_num)
    0 (by norm_num) 0 (by norm_num)

/-- C2 (counterexample).  The claim says the edge detectors preserve
alpha at every pixel including the border.  On the 3×3 buffer whose
pixels are all `(0,0,0,255)`, the Sobel output leaves the border pixel
`(0,0)` at its zero-initialized default, so its alpha byte (index 3)
is `0` while the input's is `255`. -/
theorem sobel_border_alpha_not_preserved :
    (sobel alphaBuf3x3 3 3).getD 3 0 = 0 ∧ alphaBuf3x3.getD 3 0 = 255 := by
  have hlen : alphaBuf3x3.length = 36 := by rw [alphaBuf3x3]; simp
  constructor
  · rw [sobel, applyGradient, hlen, getD_map_range _ (by norm_num),
      applyGradientAt, if_neg (by decide)]
  · rw [alphaBuf3x3, getD_map_range _ (by norm_num)]
    norm_num

/-- C2 (amended).  Alpha-channel behavior of the operations:
`sobel`, `prewitt` and `laplacian` copy the input alpha at every
interior pixel but leave every border pixel's alpha at the
zero-initialized `0`; `equalize` copies the input alpha at every
pixel; `clahe` (with positive dimensions and grid, on a well-formed
buffer) copies the input alpha at every pixel.  (Canny's documented
sub-low-threshold non-preservation is the claim's stated exception
and is covered by C4.) -/
theorem alpha_channel_behavior :
    (∀ (pixels : List ℕ) (width height n : ℕ), n < pixels.length → n % 4 = 3 →
      (interiorPix width height (n / 4 / width) (n / 4 % width) →
        (sobel pixels width height).getD n 0 = pixels.getD n 0 ∧
        (prewitt pixels width height).getD n 0 = pixels.getD n 0 ∧
        (laplacian pixels width height).getD n 0 = pixels.getD n 0) ∧
      (¬interiorPix width height (n / 4 / width) (n / 4 % width) →
        (sobel pixels width height).getD n 0 = 0 ∧
        (prewitt pixels width height).getD n 0 = 0 ∧
        (laplacian pixels width height).getD n 0 = 0)) ∧
    (∀ (pixels : List ℕ) (width height n : ℕ), n < pixels.length → n % 4 = 3 →
      (equalize pixels width height).getD n 0 = pixels.getD n 0) ∧
    (∀ (pixels : List ℕ) (width height : ℕ) (clip : ℚ) (gridSize n : ℕ),
      0 < width → 0 < height → 0 < gridSize →
      pixels.length = width * height * 4 → n < pixels.length → n % 4 = 3 →
      (clahe pixels width height clip gridSize).getD n 0 = pixels.getD n 0) := by
  refine ⟨?_, ?_, ?_⟩
  · intro pixels width height n hn h3
    constructor
    · intro hint
      refine ⟨?_, ?_, ?_⟩
      · rw [sobel, applyGradient, getD_map_range _ hn, applyGradientAt,
          if_pos hint, if_pos h3]
      · rw [prewitt, applyGradient, getD_map_range _ hn, applyGradientAt,
          if_pos hint, if_pos h3]
      · rw [laplacian, getD_map_range _ hn, laplacianAt, if_pos hint, if_pos h3]
    · intro hint
      refine ⟨?_, ?_, ?_⟩
      · rw [sobel, applyGradient, getD_map_range _ hn, applyGradientAt, if_neg hint]
      · rw [prewitt, applyGradient, getD_map_range _ hn, applyGradientAt, if_neg hint]
      · rw [laplacian, getD_map_range _ hn, laplacianAt, if_neg hint]
  · intro pixels width height n hn h3
    rw [equalize, getD_map_range _ hn, equalizeAt, if_pos h3]
  · intro pixels width height clip gridSize n hw hh hg hlen hn h3
    rw [clahe_getD_eq pixels width height clip gridSize hw hh hg hlen n hn,
      tileValue, if_pos h3]

/-- Witness for C2 (amended), on the all-`(0,0,0,255)` 3×3 buffer
(interior pixel byte 19, border pixel byte 3) and a 1×1 buffer for
`clahe`. -/
theorem alpha_channel_behavior_witness :
    ((interiorPix 3 3 (19 / 4 / 3) (19 / 4 % 3) →
        (sobel alphaBuf3x3 3 3).getD 19 0 = alphaBuf3x3.getD 19 0 ∧
        (prewitt alphaBuf3x3 3 3).getD 19 0 = alphaBuf3x3.getD 19 0 ∧
        (laplacian alphaBuf3x3 3 3).getD 19 0 = alphaBuf3x3.getD 19 0) ∧
      (¬interiorPix 3 3 (19 / 4 / 3) (19 / 4 % 3) →
        (sobel alphaBuf3x3 3 3).getD 19 0 = 0 ∧
        (prewitt alphaBuf3x3 3 3).getD 19 0 = 0 ∧
        (laplacian alphaBuf3x3 3 3).getD 19 0 = 0)) ∧
      (equalize alphaBuf3x3 3 3).getD 19 0 = alphaBuf3x3.getD 19 0 ∧
      (clahe [5, 6, 7, 8] 1 1 2 1).getD 3 0 = [5, 6, 7, 8].getD 3 0 := by
  have hlen : alphaBuf3x3.length = 36 := by rw [alphaBuf3x3]; simp
  refine ⟨?_, ?_, ?_⟩
  · exact alpha_channel_behavior.1 alphaBuf3x3 3 3 19 (by rw [hlen]; norm_num)
      (by norm_num)
  · exact alpha_channel_behavior.2.1 alphaBuf3x3 3 3 19 (by rw [hlen]; norm_num)
      (by norm_num)
  · exact alpha_channel_behavior.2.2 [5, 6, 7, 8] 1 1 2 1 3 (by norm_num)
      (by norm_num) (by norm_num) (by norm_num) (by norm_num) (by norm_num)

/-- A tile histogram only reads the bytes of the pixels inside its
rectangle. -/
theorem getTileHistogram_congr {pixels1 pixels2 : List ℕ}
    {width x1 y1 x2 y2 : ℕ}
    (h : ∀ y ∈ Finset.Ico y1 y2, ∀ x ∈ Finset.Ico x1 x2, ∀ c < 4,
      pixels1.getD ((y * width + x) * 4 + c) 0 =
        pixels2.getD ((y * width + x) * 4 + c) 0) :
    getTileHistogram pixels1 width x1 y1 x2 y2 =
      getTileHistogram pixels2 width x1 y1 x2 y2 := by
  rw [getTileHistogram, getTileHistogram]
  apply map_range_congr
  intro b _
  refine Finset.sum_congr rfl fun y hy => Finset.sum_congr rfl fun x hx => ?_
  have h0 : pixels1.getD ((y * width + x) * 4) 0 =
      pixels2.getD ((y * width + x) * 4) 0 := by
    have := h y hy x hx 0 (by norm_num)
    simpa using this
  rw [h0, h y hy x hx 1 (by norm_num), h y hy x hx 2 (by norm_num)]

/-- C6.  If two well-formed buffers agree on every byte outside one
tile `t0` of the `clahe` grid, then `clahe` (same `clipLimit`,
`gridSize`) produces the same bytes on every pixel of every other
tile: a tile's histogram, LUT and remapped output depend only on the
pixels inside that tile. -/
theorem clahe_tile_independence (pixels1 pixels2 : List ℕ)
    (width height : ℕ) (clip : ℚ) (gridSize : ℕ)
    (hw : 0 < width) (hh : 0 < height) (hg : 0 < gridSize)
    (hlen1 : pixels1.length = width * height * 4)
    (hlen2 : pixels2.length = width * height * 4)
    (t0 : ℕ × ℕ)
    (hagree : ∀ n, ¬inTilePix width height gridSize t0 (n / 4 % width) (n / 4 / width) →
      pixels1.getD n 0 = pixels2.getD n 0) :
    ∀ t : ℕ × ℕ, t ≠ t0 → ∀ n < width * height * 4,
      inTilePix width height gridSize t (n / 4 % width) (n / 4 / width) →
      (clahe pixels1 width height clip gridSize).getD n 0 =
        (clahe pixels2 width height clip gridSize).getD n 0 := by
  intro t ht n hn hin
  have htind : (n / 4 % width / tileDim width gridSize,
      n / 4 / width / tileDim height gridSize) = t := (inTilePix_eq hin).symm
  rw [clahe_getD_eq pixels1 width height clip gridSize hw hh hg hlen1 n (by omega),
    clahe_getD_eq pixels2 width height clip gridSize hw hh hg hlen2 n (by omega),
    htind, tileValue, tileValue]
  -- pixels in tile `t` are outside tile `t0`, so the two buffers agree
  -- on them
  have hout : ∀ m, inTilePix width height gridSize t (m / 4 % width) (m / 4 / width) →
      pixels1.getD m 0 = pixels2.getD m 0 := by
    intro m hm
    exact hagree m fun hm0 => ht ((inTilePix_eq hm).trans (inTilePix_eq hm0).symm)
  have hrect : ∀ y ∈ Finset.Ico (tileLo t.2 (tileDim height gridSize))
        (tileHi t.2 (tileDim height gridSize) height),
      ∀ x ∈ Finset.Ico (tileLo t.1 (tileDim width gridSize))
        (tileHi t.1 (tileDim width gridSize) width), ∀ c < 4,
      pixels1.getD ((y * width + x) * 4 + c) 0 =
        pixels2.getD ((y * width + x) * 4 + c) 0 := by
    intro y hy x hx c hc
    rw [Finset.mem_Ico] at hy hx
    have hxw : x < width := lt_of_lt_of_le hx.2 (min_le_right _ _)
    have hm4 : ((y * width + x) * 4 + c) / 4 = y * width + x := by omega
    have hmod : (y * width + x) % width = x := by
      rw [mul_comm y width, Nat.mul_add_mod, Nat.mod_eq_of_lt hxw]
    have hdivw : (y * width + x) / width = y := by
      rw [mul_comm, Nat.mul_add_div hw, Nat.div_eq_of_lt hxw, Nat.add_zero]
    refine hout _ ?_
    rw [hm4, hmod, hdivw]
    exact ⟨hx.1, hx.2, hy.1, hy.2⟩
  have hhist := getTileHistogram_congr hrect
  by_cases h3 : n % 4 = 3
  · rw [if_pos h3, if_pos h3]
    exact hout n hin
  · rw [if_neg h3, if_neg h3, tileLUT, tileLUT, hhist, hout n hin]

/-- Witness for C6: two 2×2 buffers differing only inside tile `(0,0)`
of the 2×2 grid produce the same byte at index 15 (the pixel of tile
`(1,1)`). -/
theorem clahe_tile_independence_witness :
    (clahe tileProbeA 2 2 2 2).getD 15 0 =
      (clahe tileProbeB 2 2 2 2).getD 15 0 := by
  have hagree : ∀ n, ¬inTilePix 2 2 2 (0, 0) (n / 4 % 2) (n / 4 / 2) →
      tileProbeA.getD n 0 = tileProbeB.getD n 0 := by
    intro n hn
    rcases Nat.lt_or_ge n 16 with h16 | h16
    · rcases Nat.lt_or_ge n 4 with h4 | h4
      · exfalso
        apply hn
        interval_cases n <;> decide
      · rw [tileProbeA, tileProbeB]
        interval_cases n <;> rfl
    · rw [List.getD_eq_default _ _ (by rw [show tileProbeA.length = 16 from rfl]; omega),
        List.getD_eq_default _ _ (by rw [show tileProbeB.length = 16 from rfl]; omega)]
  exact clahe_tile_independence tileProbeA tileProbeB 2 2 2 2 (by norm_num)
    (by norm_num) (by norm_num) rfl rfl (0, 0) hagree (1, 1) (by decide) 15
    (by norm_num) (by decide)

/-- C7.  The LUT derivation of CLAHE is not guarded against a zero
denominator: on the one-pixel black buffer (all channels `0`, so every
tile pixel falls into luma bin `0`), the clipped tile histogram that
`clahe(buf, 1, 1, 2.0, 1)` hands to `calculateLUT` has
`CDF[255] − CDF[0] = 0`, and `calculateLUT` divides by that quantity
(second conjunct, definitional). -/
theorem calculateLUT_zero_denominator_reached :
    lutDenominator (clipHistogram (getTileHistogram [0, 0, 0, 0] 1 0 0 1 1) 2) = 0 ∧
      tileLUT [0, 0, 0, 0] 1 2 0 0 1 1 =
        calculateLUT (clipHistogram (getTileHistogram [0, 0, 0, 0] 1 0 0 1 1) 2) := by
  have hbin : binOf 0 0 0 = 0 := by
    rw [binOf, luma]
    norm_num [jsRound]
  have hth : getTileHistogram [0, 0, 0, 0] 1 0 0 1 1 =
      (List.range 256).map fun b => if 0 = b then 1 else 0 := by
    rw [getTileHistogram]
    apply map_range_congr
    intro b _
    rw [Nat.Ico_zero_eq_range, Finset.sum_range_one, Finset.sum_range_one]
    norm_num [hbin]
  have hsum : ((List.range 256).map fun b => if 0 = b then 1 else 0).sum = 1 := by
    rw [sum_map_range, Finset.sum_ite_eq]
    norm_num
  have hlimit : clipLimitValue ((List.range 256).map fun b =>
      if 0 = b then 1 else 0) 2 = 0 := by
    rw [clipLimitValue, hsum]
    rw [show ((List.range 256).map fun b => if 0 = b then 1 else 0).length = 256 by simp]
    norm_num [jsRound]
  have hclip : clipHistogram (getTileHistogram [0, 0, 0, 0] 1 0 0 1 1) 2 =
      (List.range 256).map fun _ => 0 := by
    rw [clipHistogram, hth, hlimit, List.map_map]
    apply map_range_congr
    intro b hb
    by_cases h0 : 0 = b
    · simp only [Function.comp_apply, if_pos h0]
      decide
    · simp only [Function.comp_apply, if_neg h0]
      decide
  refine ⟨?_, rfl⟩
  rw [hclip, lutDenominator, histCdf, histCdf]
  have hz : ∀ i : ℕ, (∑ t ∈ Finset.range (i + 1),
      ((List.range 256).map fun _ => (0 : ℕ)).getD t 0) = 0 := by
    intro i
    refine Finset.sum_eq_zero fun t ht => ?_
    rcases Nat.lt_or_ge t 256 with h | h
    · rw [getD_map_range _ h]
    · rw [getD_map_range_ge _ h]
  rw [hz 255, hz 0]
  norm_num

end ImageToolkit
